import Mathlib

/-!
Verification development for the `prompt_refiner_anatomy` package
(`filters.py` and `enhancer.py`).

Strings are modelled as `List Char`.  Regular-expression operations used by
the source are modelled explicitly:

* `re.sub(r'\b(a1|...|an)\b', repl, s, flags=re.IGNORECASE)` is modelled by
  `wwSub`, a left-to-right scanner that replaces every non-overlapping
  whole-word match of one of the alternatives (compared case-insensitively
  via `Char.toLower`) by the replacement, with `\b` boundaries computed from
  the characters surrounding the match exactly as the regex engine does.
  The scanner carries a fuel argument (initialised to the string length,
  which suffices) so that it is structurally recursive and executable.
* `re.sub(r'\s+', ' ', s)` is modelled by `collapseWs`.
* `str.strip()` is modelled by `pyStrip`, `str.lower()` by `pyLower`,
  Python's substring test `pat in s` by `strIn`.
* Python's `set(...)` materialised back into a list (`list(set(x))`,
  set-comprehension constructors) is modelled by `List.dedup`; only the
  membership and duplicate-freeness of the result matter to the program.

Word characters follow the regex `\w` class restricted to ASCII
(alphanumeric or underscore), matching the vocabulary and the fixed word
lists of the source, which are all ASCII.
-/

/-- String literal to character-list helper. -/
def S (s : String) : List Char := s.toList

/-- `\w` word characters (ASCII alphanumeric or underscore). -/
def isW (c : Char) : Bool := c.isAlphanum || c == '_'

/-- `\s` whitespace characters as Python's `re`/`str.strip` treat ASCII text. -/
def isSp (c : Char) : Bool :=
  c == ' ' || c == '\t' || c == '\n' || c == '\r' || c == '\x0b' || c == '\x0c'

/-- Case-insensitive character comparison, as `re.IGNORECASE` does on ASCII. -/
def chEq (a b : Char) : Bool := a.toLower == b.toLower

/-- Word-character test of an optional character (`none` = outside the string). -/
def isWO : Option Char → Bool
  | none => false
  | some c => isW c

/-- A `\b` word boundary sits between two positions iff exactly one side is a
word character. -/
def bdry (p q : Option Char) : Bool := isWO p != isWO q

/-- A non-empty string consisting only of word characters. -/
def wordStr (w : List Char) : Bool := !w.isEmpty && w.all isW

/-- `str.lower()` (ASCII). -/
def pyLower (s : List Char) : List Char := s.map Char.toLower

/-- `str.strip()`: remove leading and trailing whitespace. -/
def pyStrip (s : List Char) : List Char :=
  (((s.dropWhile isSp).reverse.dropWhile isSp)).reverse

/-- Python's substring containment `pat in s` (case-sensitive). -/
def strIn (pat : List Char) : List Char → Bool
  | [] => pat.isEmpty
  | c :: cs => pat.isPrefixOf (c :: cs) || strIn pat cs

mutual

/-- `re.sub(r'\s+', ' ', s)`: every maximal whitespace run becomes one space. -/
def collapseWs : List Char → List Char
  | [] => []
  | c :: cs => if isSp c then ' ' :: collapseSkip cs else c :: collapseWs cs

/-- State of `collapseWs` inside a whitespace run whose single `' '` has
already been emitted. -/
def collapseSkip : List Char → List Char
  | [] => []
  | c :: cs => if isSp c then collapseSkip cs else c :: collapseWs cs

end

/-- Case-insensitive "is a leading segment of": the pattern `a` matches the
front of `s` character-by-character up to case. -/
def ciLeads : List Char → List Char → Bool
  | [], _ => true
  | _ :: _, [] => false
  | a :: as, b :: bs => chEq a b && ciLeads as bs

/-- Case-insensitive equality of whole strings. -/
def ciStrEq (a b : List Char) : Bool := a.length == b.length && ciLeads a b

/-- Attempt of the regex `\b(a1|...|an)\b` at the current position of `s`,
where `prev` is the character just before that position (`none` at the start
of the string).  Alternatives are tried left to right, as the regex engine
does; the boundary after the match is computed from the characters of `s`. -/
def wwMatch (prev : Option Char) (alts : List (List Char)) (s : List Char) :
    Option (List Char) :=
  if bdry prev s.head? then
    alts.find? fun a =>
      !a.isEmpty && ciLeads a s && bdry ((s.take a.length).getLast?) ((s.drop a.length).head?)
  else none

/-- The scanning loop of `re.sub(r'\b(a1|...|an)\b', r, s)`: leftmost,
non-overlapping matches, each replaced by `r`; scanning resumes after the
matched segment, whose last character becomes the new left context.  The
first argument is fuel; `fuel ≥ s.length` makes it irrelevant. -/
def wwSubAux (alts : List (List Char)) (r : List Char) :
    Nat → Option Char → List Char → List Char
  | _, _, [] => []
  | 0, _, s => s
  | fuel + 1, prev, c :: cs =>
    match wwMatch prev alts (c :: cs) with
    | some a =>
        r ++ wwSubAux alts r fuel (((c :: cs).take a.length).getLast?) (cs.drop (a.length - 1))
    | none => c :: wwSubAux alts r fuel (some c) cs

/-- `re.sub(r'\b(a1|...|an)\b', r, s, flags=re.IGNORECASE)`. -/
def wwSub (alts : List (List Char)) (r : List Char) (s : List Char) : List Char :=
  wwSubAux alts r s.length none s

/-- Fuel-free wrapper for `wwSubAux` (the canonical fuel is the string length). -/
def wwS (alts : List (List Char)) (r : List Char) (prev : Option Char) (s : List Char) : List Char :=
  wwSubAux alts r s.length prev s

/-- Scanning loop of `re.search(r'\b(a1|...|an)\b', s)` as a Bool. -/
def wwSearchAux (alts : List (List Char)) : Option Char → List Char → Bool
  | _, [] => false
  | prev, c :: cs => (wwMatch prev alts (c :: cs)).isSome || wwSearchAux alts (some c) cs

/-- Whole-word search, at the top level of a string. -/
def wwSearch (alts : List (List Char)) (s : List Char) : Bool :=
  wwSearchAux alts none s

mutual

/-- The maximal word-character runs ("tokens") of a string.  For a pattern
`T` made of word characters, `re.search(r'\bT\b', s)` succeeds exactly when
`T` is one of the tokens of `s` (up to the case-insensitivity of the flags
in use), so whole-word containment is phrased through `tokens`. -/
def tokens : List Char → List (List Char)
  | [] => []
  | c :: cs => if isW c then tokensW [c] cs else tokens cs

/-- State of `tokens` inside a word run, with the reversed run collected so
far in `acc`. -/
def tokensW (acc : List Char) : List Char → List (List Char)
  | [] => [acc.reverse]
  | c :: cs => if isW c then tokensW (c :: acc) cs else acc.reverse :: tokens cs

end

/-- The token-level effect of one whole-word substitution pass: a token that
case-insensitively equals one of the (word-character) alternatives is
replaced by the tokens of the replacement text, every other token is kept. -/
def tokStep (alts : List (List Char)) (r : List Char) (w : List Char) : List (List Char) :=
  if alts.any (fun x => ciStrEq x w) then tokens r else [w]

/-- After a pass, no token of the string case-insensitively lower-cases to `T`. -/
def noTok (T : List Char) (s : List Char) : Prop := ∀ w ∈ tokens s, pyLower w ≠ T

instance (T s : List Char) : Decidable (noTok T s) :=
  inferInstanceAs (Decidable (∀ w ∈ tokens s, pyLower w ≠ T))

/-- A string is already lower-case. -/
def lowered (s : List Char) : Prop := ∀ c ∈ s, c.toLower = c

/-! ## SafetyFilter (`filters.py`, class `SafetyFilter`) -/

/-- The fixed NSFW patterns of `SafetyFilter.__init__`, each regex
`\b(alt|...)\b` expanded into its ordered list of literal alternatives
(`nude?` expands to `nude` then `nud`, `sexual?` to `sexual` then `sexua`,
matching greedy `?` with backtracking). -/
def nsfw_patterns : List (List (List Char)) :=
  [ [S "nude", S "nud", S "naked", S "undressed"],
    [S "sexual", S "sexua", S "erotic", S "arousal"],
    [S "genital", S "penis", S "vagina", S "breast"],
    [S "reproductive", S "fertility", S "conception"] ]

/-- The `advanced_medical` replacement table of `SafetyFilter.__init__`,
in its insertion (iteration) order. -/
def advanced_medical : List (List Char × List Char) :=
  [ (S "dissection", S "diagram"),
    (S "autopsy", S "study"),
    (S "cadaver", S "model"),
    (S "surgical", S "medical"),
    (S "pathology", S "health study"),
    (S "trauma", S "injury study"),
    (S "blood", S "circulation"),
    (S "gore", S "anatomy") ]

/-- The hard-coded safe fallback of `SafetyFilter.clean_prompt`. -/
def fallbackStr : List Char := S "human anatomy educational diagram"

/-- `SafetyFilter`: holds the lower-cased forbidden-term set
(`set(term.lower() for term in forbidden_terms)`, modelled as a
duplicate-free list). -/
structure SafetyFilter where
  forbidden_terms : List (List Char)

/-- `SafetyFilter.__init__`. -/
def SafetyFilter.init (ts : List (List Char)) : SafetyFilter :=
  ⟨(ts.map pyLower).dedup⟩

/-- The body of `SafetyFilter.clean_prompt` up to (but excluding) the final
empty-string fallback check. -/
def SafetyFilter.preClean (f : SafetyFilter) (p : List Char) : List Char :=
  let c0 := pyStrip (pyLower p)
  let c1 := f.forbidden_terms.foldl
    (fun s t => if strIn t s then wwSub [t] [] s else s) c0
  let c2 := advanced_medical.foldl (fun s kv => wwSub [kv.1] kv.2 s) c1
  let c3 := nsfw_patterns.foldl
    (fun s pat => if wwSearch pat s then wwSub pat [] s else s) c2
  pyStrip (collapseWs c3)

/-- `SafetyFilter.clean_prompt`. -/
def SafetyFilter.clean_prompt (f : SafetyFilter) (p : List Char) : List Char :=
  let c := f.preClean p
  if c = [] then fallbackStr else c

/-- `SafetyFilter.is_safe`. -/
def SafetyFilter.is_safe (f : SafetyFilter) (p : List Char) : Bool :=
  let pl := pyLower p
  !(f.forbidden_terms.any fun t => strIn t pl) &&
  !(nsfw_patterns.any fun pat => wwSearch pat pl)

/-! ## EducationalFilter (`filters.py`, class `EducationalFilter`) -/

/-- One entry of the `body_systems` mapping of the vocabulary document. -/
structure SystemData where
  organs : List (List Char)
  structures : List (List Char)
  keywords : List (List Char)
  description : List Char
deriving DecidableEq

/-- The positive educational-quality indicator words of
`EducationalFilter.__init__`. -/
def educational_indicators_pos : List (List Char) :=
  [ S "diagram", S "illustration", S "educational", S "learning", S "study",
    S "science", S "anatomy", S "medical", S "textbook", S "simplified" ]

/-- The negative indicator words (held but not enforced by the source). -/
def educational_indicators_neg : List (List Char) :=
  [ S "complex", S "advanced", S "professional", S "clinical", S "pathological" ]

/-- The complex-to-simple replacement table of
`EducationalFilter._simplify_language`, in insertion order. -/
def simplifications : List (List Char × List Char) :=
  [ (S "anatomical structure", S "body part"),
    (S "physiological", S "body function"),
    (S "morphology", S "shape"),
    (S "pathophysiology", S "how illness affects the body"),
    (S "biomechanics", S "how the body moves"),
    (S "histology", S "tissue study") ]

/-- `EducationalFilter`: the `body_systems` mapping plus the precomputed
lower-cased set of valid terms (all organs and all keywords). -/
structure EduFilter where
  body_systems : List (List Char × SystemData)
  valid_terms : List (List Char)

/-- `EducationalFilter.__init__`: `valid_terms` is a set updated with the
lower-cased organs and keywords of every system (set modelled as a
duplicate-free list). -/
def EduFilter.init (bs : List (List Char × SystemData)) : EduFilter :=
  ⟨bs, (bs.foldl (fun acc q => acc ++ q.2.organs.map pyLower ++ q.2.keywords.map pyLower) []).dedup⟩

/-- `EducationalFilter._contains_valid_anatomy`. -/
def EduFilter.containsValidAnatomy (f : EduFilter) (p : List Char) : Bool :=
  f.valid_terms.any fun t => strIn t (pyLower p)

/-- `EducationalFilter._has_educational_context`. -/
def hasEducationalContext (p : List Char) : Bool :=
  educational_indicators_pos.any fun t => strIn t (pyLower p)

/-- `EducationalFilter._simplify_language`: a sequence of whole-word,
case-insensitive replacements. -/
def simplifyLanguage (p : List Char) : List Char :=
  simplifications.foldl (fun s kv => wwSub [kv.1] kv.2 s) p

/-- `EducationalFilter.ensure_appropriate`. -/
def EduFilter.ensure_appropriate (f : EduFilter) (p : List Char) : List Char :=
  let p1 := if !(f.containsValidAnatomy p) then S "human anatomy educational diagram, " ++ p else p
  let p2 := if !(hasEducationalContext p1) then p1 ++ S ", educational illustration for elementary science" else p1
  simplifyLanguage p2

/-- `EducationalFilter.get_age_appropriate_description`. -/
def EduFilter.get_age_appropriate_description (f : EduFilter) (name : List Char) : List Char :=
  match f.body_systems.find? (fun q => q.1 == name) with
  | none => S "body system that helps keep us healthy"
  | some q => q.2.description

/-! ## PromptRefiner (`enhancer.py`) -/

/-- The `enhancement_templates` mapping of the vocabulary (the four keys the
engine reads). -/
structure Templates where
  medical_illustration : List Char
  cross_section : List Char
  system_overview : List Char
  educational_context : List Char
deriving DecidableEq

/-- One entry of the `focus_templates` mapping of the vocabulary. -/
structure FocusConfig where
  style_prefix : List Char
  context : List Char
  style_modifiers : List (List Char)
  view_modifiers : List (List Char)
  optimization_tags : List (List Char)
deriving DecidableEq

/-- The vocabulary document (`anatomical_terms.json`), as read by the
engine.  It is external data, loaded once at construction. -/
structure VocabData where
  body_systems : List (List Char × SystemData)
  forbidden_terms : List (List Char)
  enhancement_templates : Templates
  focus_templates : List (List Char × FocusConfig)
  style_modifiers : List (List Char)
  view_modifiers : List (List Char)
  optimization_tags_3d : List (List Char)
  negative_prompt_additions : List (List Char)
  focus_negative_prompts : List (List Char × List (List Char))

/-- A source of randomness: the behaviour of `random.sample` (on a
population already known to be large enough) and of `random.choice` (on a
non-empty sequence).  Its two fields are unconstrained functions, so every
theorem quantified over `RandSrc` holds for every possible random outcome. -/
structure RandSrc where
  sample : List (List Char) → Nat → List (List Char)
  choice : List (List Char) → List Char

/-- `random.sample(pop, k)`: raises `ValueError` (here: `none`) iff
`k > len(pop)`. -/
def pySample (rand : RandSrc) (pop : List (List Char)) (k : Nat) : Option (List (List Char)) :=
  if k ≤ pop.length then some (rand.sample pop k) else none

/-- `random.choice(seq)`: raises `IndexError` (here: `none`) iff the
sequence is empty. -/
def pyChoice (rand : RandSrc) (pop : List (List Char)) : Option (List Char) :=
  if pop.isEmpty then none else some (rand.choice pop)

/-- `", ".join(parts)`. -/
def pyJoin (sep : List Char) : List (List Char) → List Char
  | [] => []
  | [x] => x
  | x :: y :: xs => x ++ sep ++ pyJoin sep (y :: xs)

/-- Leftmost non-overlapping replacement of a literal substring, with fuel
(`fuel ≥ s.length` suffices). -/
def replAllAux (pat r : List Char) : Nat → List Char → List Char
  | _, [] => []
  | 0, s => s
  | fuel + 1, c :: cs =>
    if !pat.isEmpty && pat.isPrefixOf (c :: cs) then r ++ replAllAux pat r fuel (cs.drop (pat.length - 1))
    else c :: replAllAux pat r fuel cs

/-- Replace every occurrence of a literal substring. -/
def replAll (pat r s : List Char) : List Char := replAllAux pat r s.length s

/-- Opening brace character (written numerically). -/
def lbrace : Char := Char.ofNat 123

/-- Closing brace character (written numerically). -/
def rbrace : Char := Char.ofNat 125

/-- `tpl.format(key=val)`, modelled as substitution of the placeholder
`\x7bkey\x7d`; the engine only ever formats with a single named argument. -/
def pyFormat (tpl key val : List Char) : List Char :=
  replAll (lbrace :: (key ++ [rbrace])) val tpl

/-- Dictionary lookup in an association list. -/
def alistGet {β : Type} (l : List (List Char × β)) (k : List Char) : Option β :=
  (l.find? fun q => q.1 == k).map fun q => q.2

/-- `PromptRefiner._detect_anatomical_terms`: every organ and structure of
every system whose lower-cased name is a substring of the lower-cased
prompt, deduplicated (`list(set(detected))`). -/
def detectTerms (data : VocabData) (p : List Char) : List (List Char) :=
  let pl := pyLower p
  (data.body_systems.flatMap fun q =>
    (q.2.organs.filter fun o => strIn (pyLower o) pl) ++
    (q.2.structures.filter fun o => strIn (pyLower o) pl)).dedup

/-- `PromptRefiner._detect_body_systems`: a system is included iff the
lower-casing of one of the detected terms equals (list membership, i.e.
exact string equality) the lower-casing of one of its organs/structures. -/
def detectSystems (data : VocabData) (terms : List (List Char)) : List (List Char) :=
  (data.body_systems.filter fun q =>
    terms.any fun t => ((q.2.organs ++ q.2.structures).map pyLower).contains (pyLower t)).map
    fun q => q.1

/-- The truthiness-guarded lookup `focus and focus in self.data["focus_templates"]`
(an empty focus string is falsy in Python). -/
def focusLookup (data : VocabData) (focus : Option (List Char)) : Option FocusConfig :=
  match focus with
  | none => none
  | some f => if f.isEmpty then none else alistGet data.focus_templates f

/-- The guarded lookup `focus and focus in self.data["focus_negative_prompts"]`. -/
def negLookup (data : VocabData) (focus : Option (List Char)) : Option (List (List Char)) :=
  match focus with
  | none => none
  | some f => if f.isEmpty then none else alistGet data.focus_negative_prompts f

/-- `detected_terms[0] if detected_terms else original_prompt`. -/
def primaryTerm (terms : List (List Char)) (original : List Char) : List Char :=
  match terms with
  | [] => original
  | t :: _ => t

/-- The view-type branch of `_build_positive_prompt` (identical in the focus
and default paths): `cross_section` with a detected term, or
`system_overview` with a detected system, or nothing. -/
def viewParts (data : VocabData) (terms systems : List (List Char)) (vt : List Char) : List (List Char) :=
  if vt = S "cross_section" ∧ ¬terms.isEmpty then
    [pyFormat data.enhancement_templates.cross_section (S "organ") (terms.headD [])]
  else if vt = S "system_overview" ∧ ¬systems.isEmpty then
    [pyFormat data.enhancement_templates.system_overview (S "system") (systems.headD [])]
  else []

/-- `PromptRefiner._build_positive_prompt`.  `none` models an exception
escaping from `random.sample`/`random.choice`. -/
def buildPositive (rand : RandSrc) (data : VocabData) (original : List Char)
    (terms systems : List (List Char)) (vt : List Char) (focus : Option (List Char)) :
    Option (List Char) :=
  match focusLookup data focus with
  | some cfg =>
    match pySample rand cfg.style_modifiers (min 3 cfg.style_modifiers.length) with
    | none => none
    | some sm =>
      match pyChoice rand cfg.view_modifiers with
      | none => none
      | some vm =>
        match pySample rand cfg.optimization_tags (min 4 cfg.optimization_tags.length) with
        | none => none
        | some ot =>
          some (pyJoin (S ", ")
            ([pyFormat cfg.style_prefix (S "organ") (primaryTerm terms original), cfg.context] ++
              viewParts data terms systems vt ++ sm ++ [vm] ++ ot))
  | none =>
    match pySample rand data.style_modifiers (min 2 data.style_modifiers.length) with
    | none => none
    | some sm =>
      match pyChoice rand data.view_modifiers with
      | none => none
      | some vm =>
        match pySample rand data.optimization_tags_3d 3 with
        | none => none
        | some ot =>
          some (pyJoin (S ", ")
            ([if ¬terms.isEmpty then
                pyFormat data.enhancement_templates.medical_illustration (S "organ")
                  (primaryTerm terms original)
              else S "anatomical illustration, " ++ original] ++
              viewParts data terms systems vt ++
              [data.enhancement_templates.educational_context] ++ sm ++ [vm] ++ ot))

/-- `PromptRefiner._build_negative_prompt`. -/
def buildNegative (data : VocabData) (focus : Option (List Char)) : List Char :=
  pyJoin (S ", ")
    (data.negative_prompt_additions ++
      (match negLookup data focus with
       | some l => l
       | none => []))

/-- The result dictionary of `PromptRefiner.enhance`. -/
structure EnhanceResult where
  positive : List Char
  negative : List Char
  detected_terms : List (List Char)
  detected_systems : List (List Char)
deriving DecidableEq

/-- The safety filter the engine constructs from the vocabulary. -/
def safetyOf (data : VocabData) : SafetyFilter := SafetyFilter.init data.forbidden_terms

/-- The educational filter the engine constructs from the vocabulary. -/
def eduOf (data : VocabData) : EduFilter := EduFilter.init data.body_systems

/-- The cleaned prompt computed at the top of `PromptRefiner.enhance`. -/
def cleanedOf (data : VocabData) (p : List Char) : List Char :=
  (safetyOf data).clean_prompt p

/-- The positive prompt as assembled by `enhance` (note: `enhance` passes
`cleaned_prompt`, not the raw prompt, as the `original_prompt` argument of
`_build_positive_prompt`), before `ensure_appropriate` runs on it. -/
def assembledPositive (rand : RandSrc) (data : VocabData) (p : List Char)
    (focus : Option (List Char)) (vt : List Char) : Option (List Char) :=
  buildPositive rand data (cleanedOf data p) (detectTerms data (cleanedOf data p))
    (detectSystems data (detectTerms data (cleanedOf data p))) vt focus

/-- `PromptRefiner.enhance`; `none` models an exception escaping the call. -/
def enhance (rand : RandSrc) (data : VocabData) (p : List Char)
    (focus : Option (List Char)) (vt : List Char) : Option EnhanceResult :=
  match assembledPositive rand data p focus vt with
  | none => none
  | some pos =>
    some
      { positive := (eduOf data).ensure_appropriate pos
        negative := buildNegative data focus
        detected_terms := detectTerms data (cleanedOf data p)
        detected_systems := detectSystems data (detectTerms data (cleanedOf data p)) }

/-! ## Concrete fixtures used by witnesses and counterexamples -/

/-- A deterministic random source: `sample` takes the first `k` elements,
`choice` the head. -/
def randTake : RandSrc := ⟨fun pop k => pop.take k, fun pop => pop.headD []⟩

/-- A one-system vocabulary entry whose only valid term is `xyz`. -/
def sysX : SystemData := ⟨[S "xyz"], [], [], S "d"⟩

/-- A one-system vocabulary entry whose only organ is `anatomy`. -/
def sysAnat : SystemData := ⟨[S "anatomy"], [], [], S "the anatomy system"⟩

/-- The literal placeholder `\x7borgan\x7d`. -/
def placeOrgan : List Char := lbrace :: (S "organ" ++ [rbrace])

/-- The literal placeholder `\x7bsystem\x7d`. -/
def placeSystem : List Char := lbrace :: (S "system" ++ [rbrace])

/-- A small template table. -/
def tmplA : Templates where
  medical_illustration := (S "ill of ") ++ placeOrgan
  cross_section := (S "cs of ") ++ placeOrgan
  system_overview := (S "ov of ") ++ placeSystem
  educational_context := S "edu ctx"

/-- A small focus configuration with one view modifier. -/
def cfgA : FocusConfig where
  style_prefix := (S "sp ") ++ placeOrgan
  context := S "fctx"
  style_modifiers := []
  view_modifiers := [S "fv"]
  optimization_tags := []

/-- A small vocabulary with no body systems, one focus, and three 3d tags. -/
def dataA : VocabData where
  body_systems := []
  forbidden_terms := []
  enhancement_templates := tmplA
  focus_templates := [(S "f", cfgA)]
  style_modifiers := []
  view_modifiers := [S "vm"]
  optimization_tags_3d := [S "t1", S "t2", S "t3"]
  negative_prompt_additions := [S "n1", S "n2"]
  focus_negative_prompts := [(S "f", [S "fn"])]

/-- `dataA` with fewer than three 3d optimization tags. -/
def dataB : VocabData := { dataA with optimization_tags_3d := [S "t1"] }

/-! ## Supporting lemmas -/

theorem u32_le_iff {a b : UInt32} : (a ≤ b) ↔ a.toNat ≤ b.toNat := by
  simp [UInt32.le_def, BitVec.le_def, UInt32.toNat]

theorem char_toNat_ofNat_valid {m : Nat} (h : m.isValidChar) : (Char.ofNat m).toNat = m := by
  simp [Char.ofNat, dif_pos h, Char.ofNatAux, Char.toNat, UInt32.toNat]

theorem char_eq_iff_toNat {c d : Char} : c = d ↔ c.toNat = d.toNat := by
  constructor
  · intro h; rw [h]
  · intro h
    apply Char.ext
    apply UInt32.eq_of_toBitVec_eq
    apply BitVec.eq_of_toNat_eq
    exact h

theorem isW_iff {c : Char} :
    isW c = true ↔
      (65 ≤ c.toNat ∧ c.toNat ≤ 90) ∨ (97 ≤ c.toNat ∧ c.toNat ≤ 122) ∨
      (48 ≤ c.toNat ∧ c.toNat ≤ 57) ∨ c.toNat = 95 := by
  have h95 : (c == '_') = true ↔ c.toNat = 95 := by
    rw [beq_iff_eq, char_eq_iff_toNat]
    exact Iff.rfl
  have e65 : (65 : UInt32).toNat = 65 := rfl
  have e90 : (90 : UInt32).toNat = 90 := rfl
  have e97 : (97 : UInt32).toNat = 97 := rfl
  have e122 : (122 : UInt32).toNat = 122 := rfl
  have e48 : (48 : UInt32).toNat = 48 := rfl
  have e57 : (57 : UInt32).toNat = 57 := rfl
  have hv : c.val.toNat = c.toNat := rfl
  simp only [isW, Char.isAlphanum, Char.isAlpha, Char.isUpper, Char.isLower, Char.isDigit,
    Bool.or_eq_true, Bool.and_eq_true, decide_eq_true_eq, h95, ge_iff_le,
    u32_le_iff, e65, e90, e97, e122, e48, e57, hv]
  tauto

theorem toNat_toLower (c : Char) :
    c.toLower.toNat = if 65 ≤ c.toNat ∧ c.toNat ≤ 90 then c.toNat + 32 else c.toNat := by
  unfold Char.toLower
  split
  · rename_i h
    have hv : (c.toNat + 32).isValidChar := by
      left
      have := h.2
      omega
    rw [if_pos (by omega : 65 ≤ c.toNat ∧ c.toNat ≤ 90)]
    exact char_toNat_ofNat_valid hv
  · rename_i h
    rw [if_neg (by omega : ¬(65 ≤ c.toNat ∧ c.toNat ≤ 90))]

theorem isW_toLower (c : Char) : isW c.toLower = isW c := by
  have ht := toNat_toLower c
  by_cases h : 65 ≤ c.toNat ∧ c.toNat ≤ 90
  · rw [if_pos h] at ht
    rw [Bool.eq_iff_iff, isW_iff, isW_iff, ht]
    constructor <;> intro _ <;> [skip; skip] <;> omega
  · rw [if_neg h] at ht
    rw [Bool.eq_iff_iff, isW_iff, isW_iff, ht]

theorem toLower_idem (c : Char) : c.toLower.toLower = c.toLower := by
  have ht := toNat_toLower c
  rw [char_eq_iff_toNat, toNat_toLower, if_neg]
  by_cases h0 : 65 ≤ c.toNat ∧ c.toNat ≤ 90
  · rw [if_pos h0] at ht; omega
  · rw [if_neg h0] at ht; omega

theorem chEq_lower {a b : Char} : chEq a b = true ↔ a.toLower = b.toLower := by
  simp [chEq]

theorem chEq_isW {a b : Char} (h : chEq a b = true) : isW a = isW b := by
  rw [← isW_toLower a, ← isW_toLower b, chEq_lower.mp h]

theorem isSp_not_isW {c : Char} (h : isSp c = true) : isW c = false := by
  simp only [isSp, Bool.or_eq_true, beq_iff_eq] at h
  rcases h with ((((h | h) | h) | h) | h) | h <;> subst h <;> decide

theorem tokens_cons_nw {c : Char} {cs : List Char} (h : isW c = false) :
    tokens (c :: cs) = tokens cs := by
  simp [tokens, h]

theorem tokens_cons_w0 {c : Char} {cs : List Char} (h : isW c = true) :
    tokens (c :: cs) = tokensW [c] cs := by
  simp [tokens, h]

theorem tokensW_eq (s : List Char) : ∀ acc,
    tokensW acc s = (acc.reverse ++ s.takeWhile isW) :: tokens (s.dropWhile isW) := by
  induction s with
  | nil => intro acc; simp [tokensW, tokens]
  | cons c cs ih =>
    intro acc
    by_cases h : isW c
    · simp [tokensW, h, ih, List.takeWhile_cons_of_pos, List.dropWhile_cons_of_pos]
    · simp [tokensW, h, List.takeWhile_cons_of_neg, List.dropWhile_cons_of_neg,
        tokens_cons_nw (by simp [h] : isW c = false)]

theorem tokens_cons_w {c : Char} {cs : List Char} (h : isW c = true) :
    tokens (c :: cs) = (c :: cs.takeWhile isW) :: tokens (cs.dropWhile isW) := by
  rw [tokens_cons_w0 h, tokensW_eq]
  rfl

theorem takeWhile_nil_of_headx {t : List Char} (ht : t = [] ∨ isWO t.head? = false) :
    t.takeWhile isW = [] := by
  rcases ht with rfl | ht
  · rfl
  · cases t with
    | nil => rfl
    | cons d ds =>
      simp only [List.head?_cons, isWO] at ht
      simp [List.takeWhile_cons_of_neg, ht]

theorem dropWhile_self_of_headx {t : List Char} (ht : t = [] ∨ isWO t.head? = false) :
    t.dropWhile isW = t := by
  rcases ht with rfl | ht
  · rfl
  · cases t with
    | nil => rfl
    | cons d ds =>
      simp only [List.head?_cons, isWO] at ht
      simp [List.dropWhile_cons_of_neg, ht]

theorem tokens_wblock {w t : List Char} (hw : w ≠ []) (hall : ∀ x ∈ w, isW x = true)
    (ht : t = [] ∨ isWO t.head? = false) : tokens (w ++ t) = w :: tokens t := by
  cases w with
  | nil => exact absurd rfl hw
  | cons c cs =>
    have hc : isW c = true := hall c (by simp)
    have hcs : ∀ x ∈ cs, isW x = true := fun x hx => hall x (by simp [hx])
    rw [List.cons_append, tokens_cons_w hc,
      List.takeWhile_append_of_pos hcs, List.dropWhile_append_of_pos hcs,
      takeWhile_nil_of_headx ht, dropWhile_self_of_headx ht, List.append_nil]

theorem tokens_allnw {s : List Char} (h : ∀ x ∈ s, isW x = false) : tokens s = [] := by
  induction s with
  | nil => rfl
  | cons c cs ih =>
    rw [tokens_cons_nw (h c (by simp))]
    exact ih fun x hx => h x (by simp [hx])

theorem tokens_append (s t : List Char) (ht : t = [] ∨ isWO t.head? = false) :
    tokens (s ++ t) = tokens s ++ tokens t := by
  match s with
  | [] => rfl
  | c :: cs =>
    by_cases h : isW c
    · rw [List.cons_append, tokens_cons_w h, tokens_cons_w h]
      by_cases hdw : cs.dropWhile isW = []
      · have hall : ∀ x ∈ cs, isW x = true := by
          intro x hx
          exact List.dropWhile_eq_nil_iff.mp hdw x hx
        have htw : cs.takeWhile isW = cs := List.takeWhile_eq_self_iff.mpr hall
        rw [List.takeWhile_append_of_pos hall, List.dropWhile_append_of_pos hall,
          takeWhile_nil_of_headx ht, dropWhile_self_of_headx ht, hdw, htw, List.append_nil]
        simp [tokens]
      · have h1 : (cs ++ t).takeWhile isW = cs.takeWhile isW := by
          rw [List.takeWhile_append, if_neg]
          intro hlen
          apply hdw
          have heq : cs.takeWhile isW = cs :=
            List.Sublist.eq_of_length (List.takeWhile_sublist isW) hlen
          rw [List.dropWhile_eq_nil_iff]
          intro x hx
          exact List.takeWhile_eq_self_iff.mp heq x hx
        have h2 : (cs ++ t).dropWhile isW = cs.dropWhile isW ++ t := by
          rw [List.dropWhile_append, if_neg]
          simp [hdw]
        rw [h1, h2, tokens_append (cs.dropWhile isW) t ht]
        simp
    · have h' : isW c = false := by simp [h]
      rw [List.cons_append, tokens_cons_nw h', tokens_cons_nw h']
      exact tokens_append cs t ht
termination_by s.length
decreasing_by
  · have hle : (cs.dropWhile isW).length ≤ cs.length := (List.dropWhile_sublist isW).length_le
    simp only [List.length_cons]
    omega
  · simp

theorem ciLeads_length_le : ∀ {a s : List Char}, ciLeads a s = true → a.length ≤ s.length
  | [], s, _ => by simp
  | x :: xs, [], h => by simp [ciLeads] at h
  | x :: xs, b :: bs, h => by
    simp only [ciLeads, Bool.and_eq_true] at h
    simpa using Nat.succ_le_succ (ciLeads_length_le h.2)

theorem ciLeads_take : ∀ {a s : List Char}, ciLeads a s = true → ciLeads a (s.take a.length) = true
  | [], s, _ => by simp [ciLeads]
  | x :: xs, [], h => by simp [ciLeads] at h
  | x :: xs, b :: bs, h => by
    simp only [ciLeads, Bool.and_eq_true] at h ⊢
    exact ⟨h.1, ciLeads_take h.2⟩

theorem ciLeads_all_isW : ∀ {a s : List Char}, (∀ x ∈ a, isW x = true) → ciLeads a s = true →
    ∀ y ∈ s.take a.length, isW y = true
  | [], s, _, _ => by simp
  | x :: xs, [], _, h => by simp [ciLeads] at h
  | x :: xs, b :: bs, hall, h => by
    simp only [ciLeads, Bool.and_eq_true] at h
    intro y hy
    simp only [List.length_cons, List.take_succ_cons, List.mem_cons] at hy
    rcases hy with rfl | hy
    · rw [← chEq_isW h.1]
      exact hall x (by simp)
    · exact ciLeads_all_isW (fun z hz => hall z (by simp [hz])) h.2 y hy

theorem ciLeads_append : ∀ {a w : List Char}, ciLeads a w = true → ∀ t, ciLeads a (w ++ t) = true
  | [], w, _, t => by simp [ciLeads]
  | x :: xs, [], h, t => by simp [ciLeads] at h
  | x :: xs, b :: bs, h, t => by
    simp only [ciLeads, Bool.and_eq_true] at h ⊢
    exact ⟨h.1, ciLeads_append h.2 t⟩

theorem ciStrEq_leads_append {a w t : List Char} (h : ciStrEq a w = true) :
    ciLeads a (w ++ t) = true := by
  simp only [ciStrEq, Bool.and_eq_true] at h
  exact ciLeads_append h.2 t

theorem ciStrEq_iff_lower : ∀ {a b : List Char}, ciStrEq a b = true ↔ pyLower a = pyLower b
  | [], [] => by simp [ciStrEq, ciLeads, pyLower]
  | [], b :: bs => by simp [ciStrEq, pyLower]
  | a :: as, [] => by simp [ciStrEq, pyLower]
  | a :: as, b :: bs => by
    simp only [ciStrEq, ciLeads, Bool.and_eq_true, pyLower, List.map_cons, List.cons.injEq,
      List.length_cons, beq_iff_eq, Nat.succ.injEq, chEq_lower]
    constructor
    · rintro ⟨hlen, hc, hl⟩
      exact ⟨hc, (ciStrEq_iff_lower (a := as) (b := bs)).mp (by simp [ciStrEq, hlen, hl])⟩
    · rintro ⟨hc, hl⟩
      have h2 := (ciStrEq_iff_lower (a := as) (b := bs)).mpr hl
      simp only [ciStrEq, Bool.and_eq_true, beq_iff_eq] at h2
      exact ⟨h2.1, hc, h2.2⟩

theorem wwSubAux_nil (alts : List (List Char)) (r : List Char) (f : Nat) (prev : Option Char) :
    wwSubAux alts r f prev [] = [] := by
  cases f <;> rfl

theorem wwSubAux_cons (alts : List (List Char)) (r : List Char) (f : Nat) (prev : Option Char)
    (c : Char) (cs : List Char) :
    wwSubAux alts r (f + 1) prev (c :: cs) =
      match wwMatch prev alts (c :: cs) with
      | some a => r ++ wwSubAux alts r f (((c :: cs).take a.length).getLast?) (cs.drop (a.length - 1))
      | none => c :: wwSubAux alts r f (some c) cs := rfl

theorem wwSubAux_fuel (alts : List (List Char)) (r : List Char) :
    ∀ f1 f2 prev (s : List Char), s.length ≤ f1 → s.length ≤ f2 →
      wwSubAux alts r f1 prev s = wwSubAux alts r f2 prev s := by
  intro f1
  induction f1 with
  | zero =>
    intro f2 prev s h1 _
    have : s = [] := List.length_eq_zero.mp (Nat.le_zero.mp h1)
    subst this
    rw [wwSubAux_nil, wwSubAux_nil]
  | succ f1 ih =>
    intro f2 prev s h1 h2
    match s, f2 with
    | [], f2 => rw [wwSubAux_nil, wwSubAux_nil]
    | c :: cs, 0 => exact absurd h2 (by simp)
    | c :: cs, f2 + 1 =>
      rw [wwSubAux_cons, wwSubAux_cons]
      cases hm : wwMatch prev alts (c :: cs) with
      | none =>
        simp only [List.length_cons] at h1 h2
        simp only [hm]
        rw [ih f2 (some c) cs (by omega) (by omega)]
      | some a =>
        simp only [List.length_cons] at h1 h2
        have hd : (cs.drop (a.length - 1)).length ≤ cs.length := by
          rw [List.length_drop]
          omega
        simp only [hm]
        rw [ih f2 _ _ (by omega) (by omega)]

theorem wwSub_eq_wwS (alts r s) : wwSub alts r s = wwS alts r none s := rfl

theorem wwS_nil (alts r prev) : wwS alts r prev [] = [] := rfl

theorem wwS_match {alts : List (List Char)} {r : List Char} {prev : Option Char} {c : Char}
    {cs a : List Char} (hm : wwMatch prev alts (c :: cs) = some a) :
    wwS alts r prev (c :: cs) =
      r ++ wwS alts r (((c :: cs).take a.length).getLast?) (cs.drop (a.length - 1)) := by
  show wwSubAux alts r (cs.length + 1) prev (c :: cs) = _
  rw [wwSubAux_cons]
  simp only [hm]
  congr 1
  apply wwSubAux_fuel
  · rw [List.length_drop]; omega
  · exact Nat.le_refl _

theorem wwS_nomatch {alts : List (List Char)} {r : List Char} {prev : Option Char} {c : Char}
    {cs : List Char} (hm : wwMatch prev alts (c :: cs) = none) :
    wwS alts r prev (c :: cs) = c :: wwS alts r (some c) cs := by
  show wwSubAux alts r (cs.length + 1) prev (c :: cs) = _
  rw [wwSubAux_cons]
  simp only [hm]
  rfl

theorem dropWhile_head_false {p : Char → Bool} {l : List Char} {x : Char} {xs : List Char}
    (h : l.dropWhile p = x :: xs) : p x = false := by
  have hh := List.head?_dropWhile_not p l
  rw [h] at hh
  simpa using hh

theorem wwMatch_nwhead {alts : List (List Char)}
    (hA : ∀ a ∈ alts, a ≠ [] ∧ ∀ x ∈ a, isW x = true) (prev : Option Char) {d : Char}
    (ds : List Char) (hd : isW d = false) : wwMatch prev alts (d :: ds) = none := by
  unfold wwMatch
  split
  · apply List.find?_eq_none.mpr
    intro a ha
    obtain ⟨hne, hall⟩ := hA a ha
    cases a with
    | nil => exact absurd rfl hne
    | cons x xs =>
      have hx : isW x = true := hall x (by simp)
      have hchx : chEq x d = false := by
        by_contra hcc
        have : chEq x d = true := by simpa using hcc
        rw [chEq_isW this, hd] at hx
        exact Bool.false_ne_true hx
      simp [ciLeads, hchx]
  · rfl

theorem wwS_nwhead {alts : List (List Char)} {r : List Char}
    (hA : ∀ a ∈ alts, a ≠ [] ∧ ∀ x ∈ a, isW x = true) (prev : Option Char) {d : Char}
    (ds : List Char) (hd : isW d = false) :
    wwS alts r prev (d :: ds) = d :: wwS alts r (some d) ds :=
  wwS_nomatch (wwMatch_nwhead hA prev ds hd)

theorem wwS_mid (alts : List (List Char)) (r : List Char) :
    ∀ (w : List Char), (∀ x ∈ w, isW x = true) → ∀ (pc : Char), isW pc = true →
    ∀ t, wwS alts r (some pc) (w ++ t) = w ++ wwS alts r (some (w.getLastD pc)) t := by
  intro w
  induction w with
  | nil => intro _ pc _ t; simp [List.getLastD]
  | cons c w' ih =>
    intro hall pc hpc t
    have hc : isW c = true := hall c (by simp)
    have hm : wwMatch (some pc) alts (c :: (w' ++ t)) = none := by
      unfold wwMatch
      rw [if_neg]
      simp [bdry, isWO, hpc, hc]
    rw [List.cons_append, wwS_nomatch hm, ih (fun x hx => hall x (by simp [hx])) c hc t,
      List.getLastD_cons]
    rfl

theorem wwMatch_some_elim {prev : Option Char} {alts : List (List Char)} {s a : List Char}
    (hm : wwMatch prev alts s = some a) :
    a ∈ alts ∧ a ≠ [] ∧ ciLeads a s = true ∧
      bdry ((s.take a.length).getLast?) ((s.drop a.length).head?) = true := by
  unfold wwMatch at hm
  split at hm
  · have hmem := List.mem_of_find?_eq_some hm
    have hp := List.find?_some hm
    simp only [Bool.and_eq_true] at hp
    refine ⟨hmem, ?_, hp.1.2, hp.2⟩
    intro h0
    rw [h0] at hp
    simp at hp
  · exact absurd hm (by simp)

theorem wwMatch_none_word {prev : Option Char} {alts : List (List Char)} {c : Char}
    {cs : List Char} (hp : isWO prev = false) (hc : isW c = true)
    (hm : wwMatch prev alts (c :: cs) = none) :
    ∀ a ∈ alts,
      ¬(!a.isEmpty && ciLeads a (c :: cs) &&
        bdry (((c :: cs).take a.length).getLast?) (((c :: cs).drop a.length).head?)) = true := by
  unfold wwMatch at hm
  rw [if_pos] at hm
  · exact List.find?_eq_none.mp hm
  · rw [List.head?_cons]
    unfold bdry
    rw [hp]
    simp [isWO, hc]

theorem getLastD_mem {α : Type} (l : List α) (c : α) : l.getLastD c ∈ c :: l := by
  induction l generalizing c with
  | nil => simp [List.getLastD]
  | cons y ys ih =>
    rw [List.getLastD_cons]
    have := ih y
    simp only [List.mem_cons] at this ⊢
    tauto

theorem wwS_tokens (alts : List (List Char)) (r : List Char)
    (hA : ∀ a ∈ alts, a ≠ [] ∧ ∀ x ∈ a, isW x = true) (s : List Char) :
    ∀ (prev : Option Char), isWO prev = false →
      tokens (wwS alts r prev s) = (tokens s).flatMap (tokStep alts r) := by
  match s with
  | [] =>
    intro prev hp
    rw [wwS_nil]
    simp [tokens]
  | c :: cs =>
    intro prev hp
    rcases Bool.eq_false_or_eq_true (isW c) with hc | hc
    case inr =>
      rw [wwS_nomatch (wwMatch_nwhead hA prev cs hc), tokens_cons_nw hc, tokens_cons_nw hc]
      exact wwS_tokens alts r hA cs (some c) (by simp [isWO, hc])
    case inl =>
      cases hm : wwMatch prev alts (c :: cs) with
      | some a =>
        obtain ⟨hmem, hane, hlead, hbdry⟩ := wwMatch_some_elim hm
        obtain ⟨-, haw⟩ := hA a hmem
        have hlen_le : a.length ≤ (c :: cs).length := ciLeads_length_le hlead
        have hmlen : ((c :: cs).take a.length).length = a.length := by
          rw [List.length_take]
          omega
        have hmw : ∀ x ∈ (c :: cs).take a.length, isW x = true := ciLeads_all_isW haw hlead
        have hmne : (c :: cs).take a.length ≠ [] := by
          intro h0
          rw [h0] at hmlen
          cases a with
          | nil => exact hane rfl
          | cons y ys => simp at hmlen
        have hgl : ((c :: cs).take a.length).getLast? =
            some (((c :: cs).take a.length).getLast hmne) :=
          List.getLast?_eq_getLast _ hmne
        have hglw : isW (((c :: cs).take a.length).getLast hmne) = true :=
          hmw _ (List.getLast_mem hmne)
        have hafter : isWO (((c :: cs).drop a.length).head?) = false := by
          rw [hgl] at hbdry
          unfold bdry at hbdry
          rw [show isWO (some (((c :: cs).take a.length).getLast hmne)) = true from by
            simp [isWO, hglw]] at hbdry
          simpa using hbdry
        have htok : tokens (c :: cs) =
            ((c :: cs).take a.length) :: tokens ((c :: cs).drop a.length) := by
          conv_lhs => rw [show (c :: cs) = (c :: cs).take a.length ++ (c :: cs).drop a.length from
            (List.take_append_drop _ _).symm]
          exact tokens_wblock hmne hmw (Or.inr hafter)
        have hstepm : (alts.any fun x => ciStrEq x ((c :: cs).take a.length)) = true := by
          apply List.any_eq_true.mpr
          refine ⟨a, hmem, ?_⟩
          unfold ciStrEq
          rw [hmlen]
          simp [ciLeads_take hlead]
        have hdrop : cs.drop (a.length - 1) = (c :: cs).drop a.length := by
          cases a with
          | nil => exact absurd rfl hane
          | cons y ys => simp
        rw [wwS_match hm, hdrop, hgl]
        cases hrest : (c :: cs).drop a.length with
        | nil =>
          rw [wwS_nil, List.append_nil, htok, hrest]
          simp [tokStep, hstepm, tokens]
        | cons d ds =>
          have hd : isW d = false := by
            rw [hrest] at hafter
            simpa [isWO] using hafter
          rw [wwS_nwhead hA _ ds hd]
          have hlt : ds.length < (c :: cs).length := by
            have hlen := congrArg List.length hrest
            rw [List.length_drop] at hlen
            simp only [List.length_cons] at hlen ⊢
            omega
          have hrec := wwS_tokens alts r hA ds (some d) (by simp [isWO, hd])
          rw [tokens_append r _ (Or.inr (by simp [isWO, hd])), tokens_cons_nw hd, hrec,
            htok, hrest, tokens_cons_nw hd]
          simp [tokStep, hstepm]
      | none =>
        have hfind := wwMatch_none_word hp hc hm
        have hwall : ∀ x ∈ c :: cs.takeWhile isW, isW x = true := by
          intro x hx
          rcases List.mem_cons.mp hx with rfl | hx
          · exact hc
          · exact List.mem_takeWhile_imp hx
        have hwne : (c :: cs.takeWhile isW) ≠ [] := by simp
        have happ : (c :: cs.takeWhile isW) ++ cs.dropWhile isW = c :: cs := by
          simp [List.cons_append, List.takeWhile_append_dropWhile]
        have hafter2 : isWO ((cs.dropWhile isW).head?) = false := by
          cases hdw : cs.dropWhile isW with
          | nil => simp [isWO]
          | cons d ds => simp [isWO, dropWhile_head_false hdw]
        have hnostep : (alts.any fun x => ciStrEq x (c :: cs.takeWhile isW)) = false := by
          by_contra h0
          have h1 : (alts.any fun x => ciStrEq x (c :: cs.takeWhile isW)) = true := by
            simpa using h0
          obtain ⟨a, hmem, hci⟩ := List.any_eq_true.mp h1
          apply hfind a hmem
          have halen : a.length = (c :: cs.takeWhile isW).length := by
            unfold ciStrEq at hci
            simp only [Bool.and_eq_true, beq_iff_eq] at hci
            exact hci.1
          have hane : a ≠ [] := by
            intro h0'
            rw [h0'] at halen
            simp at halen
          have hlead : ciLeads a (c :: cs) = true := by
            rw [← happ]
            exact ciStrEq_leads_append hci
          have htake : (c :: cs).take a.length = c :: cs.takeWhile isW := by
            rw [← happ, halen, List.take_left]
          have hdrop2 : (c :: cs).drop a.length = cs.dropWhile isW := by
            rw [← happ, halen, List.drop_left]
          simp only [Bool.and_eq_true]
          refine ⟨⟨?_, hlead⟩, ?_⟩
          · simp [hane]
          · rw [htake, hdrop2, List.getLast?_eq_getLast _ hwne]
            unfold bdry
            rw [hafter2]
            simp [isWO, hwall _ (List.getLast_mem hwne)]
        rw [wwS_nomatch hm]
        have htwall : ∀ x ∈ cs.takeWhile isW, isW x = true := fun x hx =>
          List.mem_takeWhile_imp hx
        have hmid : wwS alts r (some c) cs =
            cs.takeWhile isW ++
              wwS alts r (some ((cs.takeWhile isW).getLastD c)) (cs.dropWhile isW) := by
          conv_lhs => rw [show cs = cs.takeWhile isW ++ cs.dropWhile isW from
            (List.takeWhile_append_dropWhile _ _).symm]
          exact wwS_mid alts r _ htwall c hc _
        have hpc' : isW ((cs.takeWhile isW).getLastD c) = true := by
          rcases List.mem_cons.mp (getLastD_mem (cs.takeWhile isW) c) with hg | hg
          · rw [hg]; exact hc
          · exact htwall _ hg
        rw [hmid]
        cases hdw : cs.dropWhile isW with
        | nil =>
          rw [wwS_nil, List.append_nil]
          have htw : tokens (c :: cs.takeWhile isW) = [c :: cs.takeWhile isW] := by
            have := tokens_wblock (t := []) hwne hwall (Or.inl rfl)
            simpa using this
          rw [htw, tokens_cons_w hc, hdw]
          simp [tokStep, hnostep, tokens]
        | cons d ds =>
          have hd : isW d = false := dropWhile_head_false hdw
          rw [wwS_nwhead hA _ ds hd]
          have hlt : ds.length < (c :: cs).length := by
            have hsub : (cs.dropWhile isW).length ≤ cs.length :=
              (List.dropWhile_sublist isW).length_le
            rw [hdw] at hsub
            simp only [List.length_cons] at hsub ⊢
            omega
          have hrec := wwS_tokens alts r hA ds (some d) (by simp [isWO, hd])
          have hassoc : c :: (cs.takeWhile isW ++ (d :: wwS alts r (some d) ds)) =
              (c :: cs.takeWhile isW) ++ (d :: wwS alts r (some d) ds) := by
            simp
          rw [hassoc, tokens_wblock hwne hwall (Or.inr (by simp [isWO, hd])),
            tokens_cons_nw hd, hrec, tokens_cons_w hc, hdw, tokens_cons_nw hd]
          simp [tokStep, hnostep]
termination_by s.length
decreasing_by
  all_goals (simp only [List.length_cons] at *; omega)

theorem wwS_tokens_mem {alts : List (List Char)} {r : List Char}
    (hA : ∀ a ∈ alts, a ≠ [] ∧ ∀ x ∈ a, isW x = true) {s w : List Char}
    (hw : w ∈ tokens (wwSub alts r s)) :
    (w ∈ tokens s ∧ (alts.any fun x => ciStrEq x w) = false) ∨ w ∈ tokens r := by
  rw [wwSub_eq_wwS, wwS_tokens alts r hA s none rfl] at hw
  obtain ⟨v, hv, hwv⟩ := List.mem_flatMap.mp hw
  unfold tokStep at hwv
  by_cases hany : (alts.any fun x => ciStrEq x v) = true
  · rw [if_pos hany] at hwv
    exact Or.inr hwv
  · rw [if_neg hany] at hwv
    simp only [List.mem_singleton] at hwv
    subst hwv
    exact Or.inl ⟨hv, by simpa using hany⟩

theorem noTok_of_any_false {alts : List (List Char)} {T w : List Char} (hT : T ∈ alts)
    (hTl : pyLower T = T) (hany : (alts.any fun x => ciStrEq x w) = false) : pyLower w ≠ T := by
  intro hlw
  have hci : ciStrEq T w = true := ciStrEq_iff_lower.mpr (by rw [hTl, hlw])
  have h2 : (alts.any fun x => ciStrEq x w) = true := List.any_eq_true.mpr ⟨T, hT, hci⟩
  rw [h2] at hany
  exact Bool.noConfusion hany

theorem noTok_wwSub_self {alts : List (List Char)} {T : List Char}
    (hA : ∀ a ∈ alts, a ≠ [] ∧ ∀ x ∈ a, isW x = true) (hT : T ∈ alts) (hTl : pyLower T = T)
    (s : List Char) : noTok T (wwSub alts [] s) := by
  intro w hw
  rcases wwS_tokens_mem hA hw with ⟨-, hany⟩ | habs
  · exact noTok_of_any_false hT hTl hany
  · simp [tokens] at habs

theorem noTok_wwSub_pres {alts : List (List Char)} {T r : List Char}
    (hA : ∀ a ∈ alts, a ≠ [] ∧ ∀ x ∈ a, isW x = true) {s : List Char} (hs : noTok T s)
    (hr : noTok T r) : noTok T (wwSub alts r s) := by
  intro w hw
  rcases wwS_tokens_mem hA hw with ⟨hmem, -⟩ | hmem
  · exact hs w hmem
  · exact hr w hmem

theorem tokens_dropWhileSp (s : List Char) : tokens (s.dropWhile isSp) = tokens s := by
  induction s with
  | nil => rfl
  | cons c cs ih =>
    by_cases h : isSp c = true
    · rw [List.dropWhile_cons_of_pos h, ih, tokens_cons_nw (isSp_not_isW h)]
    · rw [List.dropWhile_cons_of_neg (by simpa using h)]

theorem collapseSkip_eq (s : List Char) : collapseSkip s = collapseWs (s.dropWhile isSp) := by
  induction s with
  | nil => rfl
  | cons c cs ih =>
    by_cases h : isSp c = true
    · rw [List.dropWhile_cons_of_pos h, ← ih]
      simp [collapseSkip, h]
    · rw [List.dropWhile_cons_of_neg (by simpa using h)]
      simp [collapseSkip, collapseWs, h]

theorem collapse_app_nonsp : ∀ (w t : List Char), (∀ x ∈ w, isSp x = false) →
    collapseWs (w ++ t) = w ++ collapseWs t
  | [], t, _ => rfl
  | c :: w', t, h => by
    have hc : isSp c = false := h c (by simp)
    simp only [List.cons_append, collapseWs, hc, Bool.false_eq_true, if_false]
    rw [show w'.append t = w' ++ t from rfl, collapse_app_nonsp w' t fun x hx => h x (by simp [hx])]

theorem collapse_headx {t : List Char} (ht : t = [] ∨ isWO t.head? = false) :
    collapseWs t = [] ∨ isWO (collapseWs t).head? = false := by
  rcases ht with rfl | ht
  · exact Or.inl rfl
  · cases t with
    | nil => exact Or.inl rfl
    | cons d ds =>
      simp only [List.head?_cons, isWO] at ht
      right
      by_cases h : isSp d = true
      · simp [collapseWs, h, isWO]
        decide
      · simp [collapseWs, h, isWO, ht]

theorem tokens_collapse (s : List Char) : tokens (collapseWs s) = tokens s := by
  match s with
  | [] => rfl
  | c :: cs =>
    by_cases hsp : isSp c = true
    · have hstep : collapseWs (c :: cs) = ' ' :: collapseWs (cs.dropWhile isSp) := by
        simp [collapseWs, hsp, collapseSkip_eq]
      have hlt : (cs.dropWhile isSp).length < (c :: cs).length := by
        have h9 : (cs.dropWhile isSp).length ≤ cs.length := (List.dropWhile_sublist isSp).length_le
        simp only [List.length_cons]
        omega
      rw [hstep, tokens_cons_nw (by decide), tokens_collapse (cs.dropWhile isSp),
        tokens_dropWhileSp, tokens_cons_nw (isSp_not_isW hsp)]
    · have hstep : collapseWs (c :: cs) = c :: collapseWs cs := by
        simp [collapseWs, hsp]
      by_cases hcw : isW c = true
      case neg =>
        have hc : isW c = false := by simpa using hcw
        rw [hstep, tokens_cons_nw hc, tokens_cons_nw hc]
        exact tokens_collapse cs
      case pos =>
        have hc := hcw
        have htw : ∀ x ∈ cs.takeWhile isW, isSp x = false := by
          intro x hx
          have hxw : isW x = true := List.mem_takeWhile_imp hx
          by_contra hxs
          have hxs' : isSp x = true := by simpa using hxs
          rw [isSp_not_isW hxs'] at hxw
          exact Bool.noConfusion hxw
        have hdecomp : cs = cs.takeWhile isW ++ cs.dropWhile isW :=
          (List.takeWhile_append_dropWhile _ _).symm
        have hdx : cs.dropWhile isW = [] ∨ isWO (cs.dropWhile isW).head? = false := by
          cases hdw : cs.dropWhile isW with
          | nil => exact Or.inl rfl
          | cons d ds => exact Or.inr (by simp [isWO, dropWhile_head_false hdw])
        have hcoll : collapseWs cs = cs.takeWhile isW ++ collapseWs (cs.dropWhile isW) := by
          conv_lhs => rw [hdecomp]
          exact collapse_app_nonsp _ _ htw
        have hcx := collapse_headx hdx
        have hlt : (cs.dropWhile isW).length < (c :: cs).length := by
          have h9 : (cs.dropWhile isW).length ≤ cs.length := (List.dropWhile_sublist isW).length_le
          simp only [List.length_cons]
          omega
        have hrec := tokens_collapse (cs.dropWhile isW)
        rw [hstep, tokens_cons_w hc]
        -- left: tokens (c :: collapseWs cs)
        rw [hcoll]
        rw [List.takeWhile_append_of_pos (fun x hx => List.mem_takeWhile_imp hx),
          List.dropWhile_append_of_pos (fun x hx => List.mem_takeWhile_imp hx)]
        rw [takeWhile_nil_of_headx hcx, dropWhile_self_of_headx hcx, List.append_nil]
        rw [hrec, tokens_cons_w hc]
termination_by s.length
decreasing_by
  all_goals (simp only [List.length_cons] at *; omega)

theorem tokens_allsp {s : List Char} (h : ∀ x ∈ s, isSp x = true) : tokens s = [] :=
  tokens_allnw fun x hx => isSp_not_isW (h x hx)

theorem tokens_rstrip (y : List Char) :
    tokens ((y.reverse.dropWhile isSp).reverse) = tokens y := by
  have h1 : y.reverse = y.reverse.takeWhile isSp ++ y.reverse.dropWhile isSp :=
    (List.takeWhile_append_dropWhile _ _).symm
  have hdecomp : y = (y.reverse.dropWhile isSp).reverse ++ (y.reverse.takeWhile isSp).reverse := by
    conv_lhs => rw [← List.reverse_reverse y]
    rw [← List.reverse_append, ← h1]
  have hsp : ∀ x ∈ (y.reverse.takeWhile isSp).reverse, isSp x = true := by
    intro x hx
    exact List.mem_takeWhile_imp (List.mem_reverse.mp hx)
  have hx : (y.reverse.takeWhile isSp).reverse = [] ∨
      isWO ((y.reverse.takeWhile isSp).reverse).head? = false := by
    cases hu : (y.reverse.takeWhile isSp).reverse with
    | nil => exact Or.inl rfl
    | cons d ds =>
      right
      have hd : isSp d = true := by
        apply hsp
        rw [hu]
        simp
      simp [isWO, isSp_not_isW hd]
  conv_rhs => rw [hdecomp]
  rw [tokens_append _ _ hx, tokens_allsp hsp, List.append_nil]

theorem tokens_strip (s : List Char) : tokens (pyStrip s) = tokens s := by
  unfold pyStrip
  rw [tokens_rstrip, tokens_dropWhileSp]

theorem wwS_del_sublist (alts : List (List Char)) (s : List Char) :
    ∀ prev, List.Sublist (wwS alts [] prev s) s := by
  match s with
  | [] => intro prev; rw [wwS_nil]
  | c :: cs =>
    intro prev
    cases hm : wwMatch prev alts (c :: cs) with
    | some a =>
      rw [wwS_match hm, List.nil_append]
      have hlt : (cs.drop (a.length - 1)).length < (c :: cs).length := by
        rw [List.length_drop]
        simp only [List.length_cons]
        omega
      apply List.Sublist.trans (wwS_del_sublist alts _ _)
      apply List.Sublist.trans (List.drop_sublist _ _)
      exact List.sublist_cons_self c cs
    | none =>
      rw [wwS_nomatch hm]
      exact (wwS_del_sublist alts cs (some c)).cons₂ c
termination_by s.length
decreasing_by
  all_goals (simp only [List.length_cons] at *; omega)

theorem lowered_pyLower (s : List Char) : lowered (pyLower s) := by
  intro c hc
  obtain ⟨d, -, rfl⟩ := List.mem_map.mp hc
  exact toLower_idem d

theorem lowered_of_sublist {s t : List Char} (h : List.Sublist s t) (ht : lowered t) : lowered s :=
  fun c hc => ht c (h.subset hc)

theorem lowered_strip {s : List Char} (h : lowered s) : lowered (pyStrip s) := by
  apply lowered_of_sublist _ h
  unfold pyStrip
  have h1 := (List.dropWhile_sublist (l := (s.dropWhile isSp).reverse) isSp).reverse
  rw [List.reverse_reverse] at h1
  exact h1.trans (List.dropWhile_sublist isSp)

theorem pyLower_eq_self {s : List Char} (h : lowered s) : pyLower s = s := by
  induction s with
  | nil => rfl
  | cons c cs ih =>
    have hc := h c (by simp)
    have hcs := ih fun x hx => h x (by simp [hx])
    unfold pyLower at hcs ⊢
    rw [List.map_cons, hc, hcs]

theorem tokens_mem_inf {s w : List Char} (hw : w ∈ tokens s) : w <:+: s := by
  match s with
  | [] => simp [tokens] at hw
  | c :: cs =>
    rcases Bool.eq_false_or_eq_true (isW c) with hc | hc
    · rw [tokens_cons_w hc] at hw
      rcases List.mem_cons.mp hw with rfl | hw
      · apply List.IsPrefix.isInfix
        exact ⟨cs.dropWhile isW, by simp [List.takeWhile_append_dropWhile]⟩
      · have hlt : (cs.dropWhile isW).length < (c :: cs).length := by
          have h9 : (cs.dropWhile isW).length ≤ cs.length := (List.dropWhile_sublist isW).length_le
          simp only [List.length_cons]
          omega
        have := tokens_mem_inf (s := cs.dropWhile isW) hw
        exact this.trans ((List.dropWhile_suffix isW).isInfix.trans
          (List.infix_cons (List.infix_refl cs)))
    · rw [tokens_cons_nw hc] at hw
      exact (tokens_mem_inf (s := cs) hw).trans (List.infix_cons (List.infix_refl cs))
termination_by s.length
decreasing_by
  all_goals (simp only [List.length_cons] at *; omega)

theorem strIn_iff {pat s : List Char} : strIn pat s = true ↔ pat <:+: s := by
  induction s with
  | nil =>
    simp only [strIn, List.isEmpty_iff, List.infix_nil]
  | cons c cs ih =>
    simp only [strIn, Bool.or_eq_true, List.isPrefixOf_iff_prefix, ih, List.infix_cons_iff]

theorem pyLower_idem (s : List Char) : pyLower (pyLower s) = pyLower s := by
  unfold pyLower
  rw [List.map_map]
  apply List.map_congr_left
  intro c _
  exact toLower_idem c

theorem hA_of_wordStr {alts : List (List Char)} (h : ∀ a ∈ alts, wordStr a = true) :
    ∀ a ∈ alts, a ≠ [] ∧ ∀ x ∈ a, isW x = true := by
  intro a ha
  have h1 := h a ha
  unfold wordStr at h1
  simp only [Bool.and_eq_true, Bool.not_eq_true', List.all_eq_true] at h1
  refine ⟨?_, h1.2⟩
  intro h0
  rw [h0] at h1
  simp at h1

theorem noTok_nil_str {T : List Char} : noTok T [] := by
  intro w hw
  simp [tokens] at hw

theorem noTok_of_not_strIn {T s : List Char} (hlow : lowered s)
    (hni : ¬strIn T s = true) : noTok T s := by
  intro w hw hlww
  have hinf : w <:+: s := tokens_mem_inf hw
  have hloww : lowered w := fun c hc => hlow c (hinf.subset hc)
  have hww : w = T := by rw [← hlww, pyLower_eq_self hloww]
  apply hni
  rw [strIn_iff, ← hww]
  exact hinf

theorem lowered_forbidden_step {t s : List Char}
    (hlow : lowered s) : lowered (if strIn t s then wwSub [t] [] s else s) := by
  by_cases hg : strIn t s = true
  · rw [if_pos hg]
    exact lowered_of_sublist (wwS_del_sublist [t] s none) hlow
  · rw [if_neg hg]
    exact hlow

theorem noTok_forbidden_pres {T : List Char} (l : List (List Char))
    (hl : ∀ t ∈ l, wordStr t = true) :
    ∀ {s : List Char}, noTok T s →
      noTok T (l.foldl (fun s t => if strIn t s then wwSub [t] [] s else s) s) := by
  induction l with
  | nil => intro s hs; exact hs
  | cons t l' ih =>
    intro s hs
    rw [List.foldl_cons]
    apply ih fun x hx => hl x (by simp [hx])
    by_cases hg : strIn t s = true
    · rw [if_pos hg]
      exact noTok_wwSub_pres (hA_of_wordStr fun a ha => by
        simp only [List.mem_singleton] at ha
        exact ha ▸ hl t (by simp)) hs noTok_nil_str
    · rw [if_neg hg]
      exact hs

theorem noTok_forbidden {T : List Char} (l : List (List Char))
    (hl : ∀ t ∈ l, wordStr t = true) (hT : T ∈ l) (hTl : pyLower T = T) :
    ∀ {s : List Char}, lowered s →
      noTok T (l.foldl (fun s t => if strIn t s then wwSub [t] [] s else s) s) := by
  induction l with
  | nil => exact absurd hT (by simp)
  | cons t l' ih =>
    intro s hlow
    rw [List.foldl_cons]
    by_cases htT : t = T
    · subst htT
      apply noTok_forbidden_pres l' fun x hx => hl x (by simp [hx])
      by_cases hg : strIn t s = true
      · rw [if_pos hg]
        exact noTok_wwSub_self (hA_of_wordStr fun a ha => by
          simp only [List.mem_singleton] at ha
          exact ha ▸ hl t (by simp)) (by simp) hTl s
      · rw [if_neg hg]
        exact noTok_of_not_strIn hlow hg
    · have hT' : T ∈ l' := by
        rcases List.mem_cons.mp hT with h | h
        · exact absurd h.symm htT
        · exact h
      exact ih (fun x hx => hl x (by simp [hx])) hT' (lowered_forbidden_step hlow)

theorem noTok_subst_fold {T : List Char} (l : List (List Char × List Char))
    (hk : ∀ kv ∈ l, wordStr kv.1 = true) (hv : ∀ kv ∈ l, noTok T kv.2) :
    ∀ {s : List Char}, noTok T s →
      noTok T (l.foldl (fun s kv => wwSub [kv.1] kv.2 s) s) := by
  induction l with
  | nil => intro s hs; exact hs
  | cons kv l' ih =>
    intro s hs
    rw [List.foldl_cons]
    apply ih (fun x hx => hk x (by simp [hx])) (fun x hx => hv x (by simp [hx]))
    exact noTok_wwSub_pres (hA_of_wordStr fun a ha => by
      simp only [List.mem_singleton] at ha
      exact ha ▸ hk kv (by simp)) hs (hv kv (by simp))

theorem noTok_nsfw_fold {T : List Char} (l : List (List (List Char)))
    (hk : ∀ pat ∈ l, ∀ a ∈ pat, wordStr a = true) :
    ∀ {s : List Char}, noTok T s →
      noTok T (l.foldl (fun s pat => if wwSearch pat s then wwSub pat [] s else s) s) := by
  induction l with
  | nil => intro s hs; exact hs
  | cons pat l' ih =>
    intro s hs
    rw [List.foldl_cons]
    apply ih fun x hx => hk x (by simp [hx])
    by_cases hg : wwSearch pat s = true
    · rw [if_pos hg]
      exact noTok_wwSub_pres (hA_of_wordStr (hk pat (by simp))) hs noTok_nil_str
    · rw [if_neg hg]
      exact hs

theorem preClean_eq (f : SafetyFilter) (p : List Char) :
    f.preClean p =
      pyStrip (collapseWs
        (nsfw_patterns.foldl (fun s pat => if wwSearch pat s then wwSub pat [] s else s)
          (advanced_medical.foldl (fun s kv => wwSub [kv.1] kv.2 s)
            (f.forbidden_terms.foldl (fun s t => if strIn t s then wwSub [t] [] s else s)
              (pyStrip (pyLower p)))))) := rfl

theorem clean_noTok {ts : List (List Char)} {T P : List Char}
    (hT : T ∈ (SafetyFilter.init ts).forbidden_terms)
    (hW : ∀ t ∈ (SafetyFilter.init ts).forbidden_terms, wordStr t = true)
    (hAdv : ∀ kv ∈ advanced_medical, noTok T kv.2)
    (hFb : noTok T fallbackStr) :
    noTok T ((SafetyFilter.init ts).clean_prompt P) := by
  have hTl : pyLower T = T := by
    have hT' : T ∈ ts.map pyLower := List.mem_dedup.mp hT
    obtain ⟨x, -, rfl⟩ := List.mem_map.mp hT'
    exact pyLower_idem x
  have hpre : noTok T ((SafetyFilter.init ts).preClean P) := by
    rw [preClean_eq]
    intro w hw
    rw [tokens_strip, tokens_collapse] at hw
    revert w hw
    show noTok T _
    apply noTok_nsfw_fold nsfw_patterns (by decide)
    apply noTok_subst_fold advanced_medical (by decide) hAdv
    exact noTok_forbidden _ hW hT hTl (lowered_strip (lowered_pyLower P))
  unfold SafetyFilter.clean_prompt
  by_cases hc : (SafetyFilter.init ts).preClean P = []
  · rw [if_pos hc]
    exact hFb
  · rw [if_neg hc]
    exact hpre

theorem alist_find_nodup {β : Type} {bs : List (List Char × β)} {name : List Char} {sd : β}
    (hnd : (bs.map Prod.fst).Nodup) (hmem : (name, sd) ∈ bs) :
    bs.find? (fun q => q.1 == name) = some (name, sd) := by
  induction bs with
  | nil => simp at hmem
  | cons q qs ih =>
    rw [List.map_cons, List.nodup_cons] at hnd
    by_cases hq : q.1 == name
    · rw [List.find?_cons_of_pos (p := fun z => z.1 == name) (a := q) qs hq]
      rcases List.mem_cons.mp hmem with h | h
    
      · rw [h]
      · exfalso
        apply hnd.1
        rw [show q.1 = name from by simpa using hq]
        exact List.mem_map.mpr ⟨(name, sd), h, rfl⟩
    · rw [List.find?_cons_of_neg (p := fun z => z.1 == name) (a := q) qs hq]
      apply ih hnd.2
      rcases List.mem_cons.mp hmem with h | h
      · exfalso
        apply hq
        rw [← h]
        simp
      · exact h

theorem alist_find_absent {β : Type} {bs : List (List Char × β)} {name : List Char}
    (habs : ∀ sd : β, (name, sd) ∉ bs) : bs.find? (fun q => q.1 == name) = none := by
  apply List.find?_eq_none.mpr
  intro q hq hbeq
  apply habs q.2
  have h1 : q.1 = name := by simpa using hbeq
  rw [← h1]
  exact hq

theorem detectTerms_mem (data : VocabData) (p t : List Char) :
    t ∈ detectTerms data p ↔
      (∃ q ∈ data.body_systems, t ∈ q.2.organs ∨ t ∈ q.2.structures) ∧
        strIn (pyLower t) (pyLower p) = true := by
  unfold detectTerms
  rw [List.mem_dedup, List.mem_flatMap]
  constructor
  · rintro ⟨q, hq, ht⟩
    rcases List.mem_append.mp ht with h | h
    · obtain ⟨h1, h2⟩ := List.mem_filter.mp h
      exact ⟨⟨q, hq, Or.inl h1⟩, h2⟩
    · obtain ⟨h1, h2⟩ := List.mem_filter.mp h
      exact ⟨⟨q, hq, Or.inr h1⟩, h2⟩
  · rintro ⟨⟨q, hq, ht⟩, hin⟩
    refine ⟨q, hq, ?_⟩
    rcases ht with h | h
    · exact List.mem_append.mpr (Or.inl (List.mem_filter.mpr ⟨h, hin⟩))
    · exact List.mem_append.mpr (Or.inr (List.mem_filter.mpr ⟨h, hin⟩))

theorem detectTerms_nodup (data : VocabData) (p : List Char) : (detectTerms data p).Nodup :=
  List.nodup_dedup _

theorem detectSystems_mem (data : VocabData) (terms : List (List Char)) (sy : List Char) :
    sy ∈ detectSystems data terms ↔
      ∃ sd, (sy, sd) ∈ data.body_systems ∧
        ∃ t ∈ terms, ∃ w ∈ sd.organs ++ sd.structures, pyLower w = pyLower t := by
  unfold detectSystems
  rw [List.mem_map]
  constructor
  · rintro ⟨q, hq, rfl⟩
    obtain ⟨hqmem, hcond⟩ := List.mem_filter.mp hq
    obtain ⟨t, ht, hc⟩ := List.any_eq_true.mp hcond
    have hmemmap : pyLower t ∈ (q.2.organs ++ q.2.structures).map pyLower := by
      rw [← List.elem_iff]
      exact hc
    obtain ⟨w, hw, heq⟩ := List.mem_map.mp hmemmap
    exact ⟨q.2, hqmem, t, ht, w, hw, heq⟩
  · rintro ⟨sd, hmem, t, ht, w, hw, heq⟩
    refine ⟨(sy, sd), List.mem_filter.mpr ⟨hmem, ?_⟩, rfl⟩
    apply List.any_eq_true.mpr
    refine ⟨t, ht, ?_⟩
    have hmemmap : pyLower t ∈ (sd.organs ++ sd.structures).map pyLower :=
      List.mem_map.mpr ⟨w, hw, heq⟩
    rw [← List.elem_iff] at hmemmap
    exact hmemmap

theorem detectSystems_nodup (data : VocabData) (terms : List (List Char))
    (hnd : (data.body_systems.map Prod.fst).Nodup) : (detectSystems data terms).Nodup := by
  unfold detectSystems
  apply List.Nodup.sublist _ hnd
  exact List.Sublist.map _ (List.filter_sublist _)

theorem pyJoin_head (sep x : List Char) (xs : List (List Char)) :
    ∃ t, pyJoin sep (x :: xs) = x ++ t := by
  cases xs with
  | nil => exact ⟨[], by simp [pyJoin]⟩
  | cons y ys => exact ⟨sep ++ pyJoin sep (y :: ys), by simp [pyJoin]⟩

/-! ## Claims -/

/-- C1 counterexample: the claim "for every forbidden term T and prompt P
containing T as a whole word, clean_prompt(P) does not contain T
(case-insensitive)" is false.  With forbidden term `arm` and prompt
`arm farm`, the whole-word occurrence is deleted but the result `farm`
still contains `arm` as a substring; and with forbidden term `circulation`
and prompt `circulation blood`, the advanced-medical substitution
`blood -> circulation` re-introduces `circulation` even as a whole word
of the result. -/
theorem claim_C1_counterexample :
    ((S "arm") ∈ (SafetyFilter.init [S "arm"]).forbidden_terms ∧
      (∃ w ∈ tokens (S "arm farm"), pyLower w = S "arm") ∧
      strIn (S "arm")
        (pyLower ((SafetyFilter.init [S "arm"]).clean_prompt (S "arm farm"))) = true) ∧
    ((S "circulation") ∈ (SafetyFilter.init [S "circulation"]).forbidden_terms ∧
      (∃ w ∈ tokens (S "circulation blood"), pyLower w = S "circulation") ∧
      ∃ w ∈ tokens ((SafetyFilter.init [S "circulation"]).clean_prompt (S "circulation blood")),
        pyLower w = S "circulation") := by
  decide

/-- C1 (amended): for every forbidden term T of the filter and every prompt
P containing T as a whole word, the result of clean_prompt(P) contains no
whole-word occurrence of T (case-insensitively), provided every stored
forbidden term is a non-empty word-character string, and T does not occur
as a whole word inside any advanced-medical replacement text or inside the
fallback string.  (Without those provisos, and for substring containment,
the counterexample shows the property fails.) -/
theorem claim_C1_amended (ts : List (List Char)) (T P : List Char)
    (hT : T ∈ (SafetyFilter.init ts).forbidden_terms)
    (hW : ∀ t ∈ (SafetyFilter.init ts).forbidden_terms, wordStr t = true)
    (hAdv : ∀ kv ∈ advanced_medical, noTok T kv.2)
    (hFb : noTok T fallbackStr)
    (_hP : ∃ w ∈ tokens P, pyLower w = T) :
    noTok T ((SafetyFilter.init ts).clean_prompt P) :=
  clean_noTok hT hW hAdv hFb

/-- C1 witness: the amended claim applied to the filter over `gore` and the
prompt `gore story`. -/
theorem claim_C1_witness :
    noTok (S "gore") ((SafetyFilter.init [S "gore"]).clean_prompt (S "gore story")) :=
  claim_C1_amended [S "gore"] (S "gore") (S "gore story") (by decide) (by decide)
    (by decide) (by decide) ⟨S "gore", by decide, by decide⟩

/-- C2: clean_prompt never returns the empty string, and whenever the whole
pipeline (forbidden-term deletion, advanced-term substitution, NSFW-pattern
deletion, whitespace collapsing and stripping) empties the prompt, the
result is exactly the fallback string "human anatomy educational diagram". -/
theorem claim_C2 (ts : List (List Char)) (P : List Char) :
    (SafetyFilter.init ts).clean_prompt P ≠ [] ∧
      ((SafetyFilter.init ts).preClean P = [] →
        (SafetyFilter.init ts).clean_prompt P = fallbackStr) := by
  constructor
  · unfold SafetyFilter.clean_prompt
    by_cases hc : (SafetyFilter.init ts).preClean P = []
    · rw [if_pos hc]
      decide
    · rw [if_neg hc]
      exact hc
  · intro h
    unfold SafetyFilter.clean_prompt
    rw [if_pos h]

/-- C2 witness: the prompt `nude` is entirely filtered away and the fallback
is returned. -/
theorem claim_C2_witness :
    (SafetyFilter.init []).preClean (S "nude") = [] ∧
      (SafetyFilter.init []).clean_prompt (S "nude") = fallbackStr ∧
      (SafetyFilter.init []).clean_prompt (S "nude") ≠ [] :=
  ⟨by decide, (claim_C2 [] (S "nude")).2 (by decide), (claim_C2 [] (S "nude")).1⟩

/-- C5: the detected terms of a cleaned prompt are exactly the organ and
structure names (across all body systems) whose lower-casing occurs as a
substring of the lower-cased prompt, without duplicates. -/
theorem claim_C5 (data : VocabData) (p : List Char) :
    (∀ t, t ∈ detectTerms data p ↔
      (∃ q ∈ data.body_systems, t ∈ q.2.organs ∨ t ∈ q.2.structures) ∧
        strIn (pyLower t) (pyLower p) = true) ∧
    (detectTerms data p).Nodup :=
  ⟨fun t => detectTerms_mem data p t, detectTerms_nodup data p⟩

/-- C5 witness: for the vocabulary with single organ `xyz` and the prompt
`my Xyz here`, the term is detected; and the detected list has no
duplicates. -/
theorem claim_C5_witness :
    ((S "xyz") ∈ detectTerms { dataA with body_systems := [(S "s", sysX)] } (S "my Xyz here")) ∧
      (detectTerms { dataA with body_systems := [(S "s", sysX)] } (S "my Xyz here")).Nodup :=
  ⟨((claim_C5 _ _).1 _).mpr (by decide), (claim_C5 _ _).2⟩

/-- C6: a body system is detected iff one of its organ or structure names is
case-insensitively equal (exact equality of the lower-casings, not substring
containment) to one of the detected terms; given the distinct system names of
a dictionary, the detected systems contain no duplicates. -/
theorem claim_C6 (data : VocabData) (terms : List (List Char)) :
    (∀ sy, sy ∈ detectSystems data terms ↔
      ∃ sd, (sy, sd) ∈ data.body_systems ∧
        ∃ t ∈ terms, ∃ w ∈ sd.organs ++ sd.structures, pyLower w = pyLower t) ∧
    ((data.body_systems.map Prod.fst).Nodup → (detectSystems data terms).Nodup) :=
  ⟨fun sy => detectSystems_mem data terms sy, detectSystems_nodup data terms⟩

/-- C6 witness: with single system `s` owning organ `xyz`, the term `XYZ`
selects `s` (case-insensitive equality), and the result has no duplicates. -/
theorem claim_C6_witness :
    ((S "s") ∈ detectSystems { dataA with body_systems := [(S "s", sysX)] } [S "XYZ"]) ∧
      (detectSystems { dataA with body_systems := [(S "s", sysX)] } [S "XYZ"]).Nodup :=
  ⟨((claim_C6 _ _).1 _).mpr ⟨sysX, by decide, S "XYZ", by decide, S "xyz", by decide, by decide⟩,
    (claim_C6 _ _).2 (by decide)⟩

/-- C9: get_age_appropriate_description returns the stored description of a
known system and the fixed generic fallback for an unknown one (the
function is total, so no exception can be raised). -/
theorem claim_C9 (bs : List (List Char × SystemData)) (name : List Char) :
    (∀ sd, (bs.map Prod.fst).Nodup → (name, sd) ∈ bs →
      (EduFilter.init bs).get_age_appropriate_description name = sd.description) ∧
    ((∀ sd, (name, sd) ∉ bs) →
      (EduFilter.init bs).get_age_appropriate_description name =
        S "body system that helps keep us healthy") := by
  constructor
  · intro sd hnd hmem
    unfold EduFilter.get_age_appropriate_description
    rw [show (EduFilter.init bs).body_systems = bs from rfl, alist_find_nodup hnd hmem]
  · intro habs
    unfold EduFilter.get_age_appropriate_description
    rw [show (EduFilter.init bs).body_systems = bs from rfl, alist_find_absent habs]

/-- C9 witness: description lookup on a present and on an absent system
name. -/
theorem claim_C9_witness :
    (EduFilter.init [(S "s", sysAnat)]).get_age_appropriate_description (S "s") =
        sysAnat.description ∧
      (EduFilter.init [(S "s", sysAnat)]).get_age_appropriate_description (S "nope") =
        S "body system that helps keep us healthy" :=
  ⟨(claim_C9 [(S "s", sysAnat)] (S "s")).1 sysAnat (by decide) (by decide),
    (claim_C9 [(S "s", sysAnat)] (S "nope")).2 (fun sd hmem => by
      simp only [List.mem_singleton] at hmem
      have h1 : S "nope" = S "s" := congrArg Prod.fst hmem
      exact absurd h1 (by decide))⟩

/-- C10: in every successful enhancement result, each detected term is
verbatim one of the vocabulary's organ or structure strings, each detected
system is one of the vocabulary's system names, and detected systems are
non-empty whenever detected terms are. -/
theorem claim_C10 (rand : RandSrc) (data : VocabData) (P : List Char)
    (focus : Option (List Char)) (vt : List Char) {r : EnhanceResult}
    (h : enhance rand data P focus vt = some r) :
    (∀ t ∈ r.detected_terms, ∃ q ∈ data.body_systems, t ∈ q.2.organs ∨ t ∈ q.2.structures) ∧
    (∀ sy ∈ r.detected_systems, sy ∈ data.body_systems.map Prod.fst) ∧
    (r.detected_terms ≠ [] → r.detected_systems ≠ []) := by
  have hterms : r.detected_terms = detectTerms data (cleanedOf data P) := by
    unfold enhance at h
    cases ha : assembledPositive rand data P focus vt with
    | none => rw [ha] at h; exact absurd h (by simp)
    | some pos =>
      rw [ha] at h
      simp only [Option.some.injEq] at h
      rw [← h]
  have hsys : r.detected_systems = detectSystems data (detectTerms data (cleanedOf data P)) := by
    unfold enhance at h
    cases ha : assembledPositive rand data P focus vt with
    | none => rw [ha] at h; exact absurd h (by simp)
    | some pos =>
      rw [ha] at h
      simp only [Option.some.injEq] at h
      rw [← h]
  refine ⟨?_, ?_, ?_⟩
  · intro t ht
    rw [hterms] at ht
    exact ((detectTerms_mem data _ t).mp ht).1
  · intro sy hsy
    rw [hsys] at hsy
    obtain ⟨sd, hmem, -⟩ := (detectSystems_mem data _ sy).mp hsy
    exact List.mem_map.mpr ⟨(sy, sd), hmem, rfl⟩
  · intro hne
    rw [hterms] at hne
    obtain ⟨t, ht⟩ := List.exists_mem_of_ne_nil _ hne
    obtain ⟨⟨q, hq, hto⟩, -⟩ := (detectTerms_mem data _ t).mp ht
    apply List.ne_nil_of_mem (a := q.1)
    rw [hsys]
    apply (detectSystems_mem data _ q.1).mpr
    refine ⟨q.2, by simpa using hq, t, ht, t, ?_, rfl⟩
    rcases hto with h | h
    · exact List.mem_append.mpr (Or.inl h)
    · exact List.mem_append.mpr (Or.inr h)

/-- C10 witness: the invariants hold on a concrete successful enhancement
whose prompt mentions the organ `xyz`. -/
theorem claim_C10_witness :
    ∃ r, enhance randTake { dataA with body_systems := [(S "s", sysX)] } (S "xyz") none
        (S "standard") = some r ∧
      ((∀ t ∈ r.detected_terms,
          ∃ q ∈ ({ dataA with body_systems := [(S "s", sysX)] } : VocabData).body_systems,
            t ∈ q.2.organs ∨ t ∈ q.2.structures) ∧
        (∀ sy ∈ r.detected_systems,
          sy ∈ ({ dataA with body_systems := [(S "s", sysX)] } : VocabData).body_systems.map
            Prod.fst) ∧
        (r.detected_terms ≠ [] → r.detected_systems ≠ [])) := by
  cases he : enhance randTake { dataA with body_systems := [(S "s", sysX)] } (S "xyz") none
      (S "standard") with
  | none => exact absurd he (by decide)
  | some r => exact ⟨r, rfl, claim_C10 _ _ _ _ _ he⟩

theorem pySample_clamped (rand : RandSrc) (pop : List (List Char)) (k : Nat) :
    pySample rand pop (min k pop.length) = some (rand.sample pop (min k pop.length)) := by
  unfold pySample
  rw [if_pos (Nat.min_le_right _ _)]

/-- C7: on the default path the engine requests a sample of exactly 3 of the
global 3d optimization tags with no clamp, so enhancement fails whenever
that list has fewer than 3 elements; on the focus path the two sample sizes
are clamped with `min`, so for a recognized focus with a non-empty
view-modifier list enhancement always succeeds. -/
theorem claim_C7 (rand : RandSrc) (data : VocabData) (P vt : List Char) :
    (∀ focus, focusLookup data focus = none → data.optimization_tags_3d.length < 3 →
      enhance rand data P focus vt = none) ∧
    (∀ focus cfg, focusLookup data focus = some cfg → cfg.view_modifiers ≠ [] →
      ∃ r, enhance rand data P focus vt = some r) := by
  constructor
  · intro focus hf hlen
    have hbuild : assembledPositive rand data P focus vt = none := by
      unfold assembledPositive buildPositive
      rw [hf]
      simp only []
      rw [pySample_clamped]
      cases hvm : pyChoice rand data.view_modifiers with
      | none => simp
      | some vm =>
        have hot : pySample rand data.optimization_tags_3d 3 = none := by
          unfold pySample
          rw [if_neg (by omega)]
        simp only [hot]
    unfold enhance
    rw [hbuild]
  · intro focus cfg hf hvm
    have hvm' : data.view_modifiers = data.view_modifiers := rfl
    have hchoice : pyChoice rand cfg.view_modifiers = some (rand.choice cfg.view_modifiers) := by
      unfold pyChoice
      rw [if_neg (by simpa using hvm)]
    have hbuild : ∃ s, assembledPositive rand data P focus vt = some s := by
      unfold assembledPositive buildPositive
      rw [hf]
      simp only []
      rw [pySample_clamped, hchoice, pySample_clamped]
      exact ⟨_, rfl⟩
    obtain ⟨s, hs⟩ := hbuild
    unfold enhance
    rw [hs]
    exact ⟨_, rfl⟩

/-- C7 witness: with one 3d tag the default path fails; with the recognized
focus `f` (whose view modifiers are non-empty) enhancement succeeds on the
same vocabulary. -/
theorem claim_C7_witness :
    enhance randTake dataB (S "x") none (S "standard") = none ∧
      ∃ r, enhance randTake dataB (S "x") (some (S "f")) (S "standard") = some r :=
  ⟨(claim_C7 randTake dataB (S "x") (S "standard")).1 none (by decide) (by decide),
    (claim_C7 randTake dataB (S "x") (S "standard")).2 (some (S "f")) cfgA (by decide)
      (by decide)⟩

/-- C8: the negative prompt of every successful enhancement is the base
negative_prompt_additions list, extended by the focus's extra fragments
exactly when the focus is recognized in focus_negative_prompts, joined with
", "; it does not depend on the prompt text or the view type. -/
theorem claim_C8 (rand : RandSrc) (data : VocabData) (P : List Char)
    (focus : Option (List Char)) (vt : List Char) {r : EnhanceResult}
    (h : enhance rand data P focus vt = some r) :
    r.negative = pyJoin (S ", ")
      (data.negative_prompt_additions ++
        (match negLookup data focus with
         | some l => l
         | none => [])) ∧
    (∀ P' vt' r', enhance rand data P' focus vt' = some r' → r'.negative = r.negative) := by
  have hneg : ∀ P0 vt0 r0, enhance rand data P0 focus vt0 = some r0 →
      r0.negative = buildNegative data focus := by
    intro P0 vt0 r0 h0
    unfold enhance at h0
    cases ha : assembledPositive rand data P0 focus vt0 with
    | none => rw [ha] at h0; exact absurd h0 (by simp)
    | some pos =>
      rw [ha] at h0
      simp only [Option.some.injEq] at h0
      rw [← h0]
  constructor
  · rw [hneg P vt r h]
    rfl
  · intro P' vt' r' h'
    rw [hneg P' vt' r' h', hneg P vt r h]

/-- C8 witness: on a concrete vocabulary, the negative prompt of a
focus-less call is the joined base list, and it coincides across different
prompts and view types. -/
theorem claim_C8_witness :
    ∃ r, enhance randTake dataA (S "Hello") none (S "standard") = some r ∧
      r.negative = pyJoin (S ", ")
        (dataA.negative_prompt_additions ++
          (match negLookup dataA none with
           | some l => l
           | none => [])) := by
  cases he : enhance randTake dataA (S "Hello") none (S "standard") with
  | none => exact absurd he (by decide)
  | some r => exact ⟨r, rfl, (claim_C8 randTake dataA (S "Hello") none (S "standard") he).1⟩

/-- C4 counterexample: the claim that, with no recognized focus and no
detected term, the assembled positive prompt begins with
"anatomical illustration, " followed by the original, uncleaned prompt is
false: `enhance` hands the safety-cleaned prompt to the prompt builder, so
for the prompt "Hello" (cleaned to "hello") the assembled prompt does not
start with the original spelling, but does start with the cleaned one. -/
theorem claim_C4_counterexample :
    (assembledPositive randTake dataA (S "Hello") none (S "standard")).map
        (fun s => (S "anatomical illustration, " ++ S "Hello").isPrefixOf s) = some false ∧
      (assembledPositive randTake dataA (S "Hello") none (S "standard")).map
        (fun s => (S "anatomical illustration, " ++ cleanedOf dataA (S "Hello")).isPrefixOf s) =
        some true := by
  decide

/-- C4 (amended): with no recognized focus and no detected anatomical term,
the assembled positive prompt (before the educational-appropriateness pass)
begins with "anatomical illustration, " followed by the safety-cleaned
prompt (not the raw caller-supplied prompt). -/
theorem claim_C4_amended (rand : RandSrc) (data : VocabData) (P : List Char)
    (focus : Option (List Char)) (vt : List Char)
    (h1 : focusLookup data focus = none)
    (h2 : detectTerms data (cleanedOf data P) = [])
    {s : List Char} (h3 : assembledPositive rand data P focus vt = some s) :
    (S "anatomical illustration, " ++ cleanedOf data P).isPrefixOf s = true := by
  unfold assembledPositive buildPositive at h3
  rw [h1, h2] at h3
  simp only [] at h3
  cases hsm : pySample rand data.style_modifiers (min 2 data.style_modifiers.length) with
  | none => rw [hsm] at h3; exact absurd h3 (by simp)
  | some sm =>
    rw [hsm] at h3
    cases hvm : pyChoice rand data.view_modifiers with
    | none => rw [hvm] at h3; exact absurd h3 (by simp)
    | some vm =>
      rw [hvm] at h3
      cases hot : pySample rand data.optimization_tags_3d 3 with
      | none => rw [hot] at h3; exact absurd h3 (by simp)
      | some ot =>
        rw [hot] at h3
        simp only [List.isEmpty_nil, not_true, if_false, Option.some.injEq,
          List.cons_append, List.nil_append] at h3
        rw [List.isPrefixOf_iff_prefix, ← h3]
        obtain ⟨t, ht⟩ := pyJoin_head (S ", ")
          (S "anatomical illustration, " ++ cleanedOf data P)
          (viewParts data [] (detectSystems data []) vt ++
            [data.enhancement_templates.educational_context] ++ sm ++ [vm] ++ ot)
        rw [ht]
        exact ⟨t, by simp⟩

/-- C4 witness: the amended claim at the concrete instance of the
counterexample. -/
theorem claim_C4_witness :
    ∃ s, assembledPositive randTake dataA (S "Hello") none (S "standard") = some s ∧
      (S "anatomical illustration, " ++ cleanedOf dataA (S "Hello")).isPrefixOf s = true := by
  cases he : assembledPositive randTake dataA (S "Hello") none (S "standard") with
  | none => exact absurd he (by decide)
  | some s =>
    exact ⟨s, rfl,
      claim_C4_amended randTake dataA (S "Hello") none (S "standard") (by decide) (by decide) he⟩

theorem ensure_appropriate_eq (f : EduFilter) (p : List Char) :
    f.ensure_appropriate p =
      simplifyLanguage
        (if !(hasEducationalContext
            (if !(f.containsValidAnatomy p) then S "human anatomy educational diagram, " ++ p
             else p)) then
          (if !(f.containsValidAnatomy p) then S "human anatomy educational diagram, " ++ p
           else p) ++ S ", educational illustration for elementary science"
         else
          (if !(f.containsValidAnatomy p) then S "human anatomy educational diagram, " ++ p
           else p)) := rfl

/-- C3 counterexample: ensure_appropriate is not idempotent for every
vocabulary and prompt.  For the vocabulary whose only valid term is `xyz`
and the prompt "hello", the first call prepends the anatomical prefix,
which itself contains no valid term, so the second call prepends it
again. -/
theorem claim_C3_counterexample :
    (EduFilter.init [(S "s", sysX)]).ensure_appropriate
        ((EduFilter.init [(S "s", sysX)]).ensure_appropriate (S "hello")) ≠
      (EduFilter.init [(S "s", sysX)]).ensure_appropriate (S "hello") := by
  decide

/-- C3 (amended): ensure_appropriate is idempotent at every prompt whose
first output still contains a valid anatomical term, still contains a
positive educational indicator, and is a fixed point of the
simplification pass (so a second call changes nothing).  The counterexample
shows that for an arbitrary vocabulary these provisos cannot be dropped:
the prepended phrase need not contain any valid term of the vocabulary. -/
theorem claim_C3_amended (bs : List (List Char × SystemData)) (P : List Char)
    (h1 : (EduFilter.init bs).containsValidAnatomy
      ((EduFilter.init bs).ensure_appropriate P) = true)
    (h2 : hasEducationalContext ((EduFilter.init bs).ensure_appropriate P) = true)
    (h3 : simplifyLanguage ((EduFilter.init bs).ensure_appropriate P) =
      (EduFilter.init bs).ensure_appropriate P) :
    (EduFilter.init bs).ensure_appropriate ((EduFilter.init bs).ensure_appropriate P) =
      (EduFilter.init bs).ensure_appropriate P := by
  rw [ensure_appropriate_eq (EduFilter.init bs) ((EduFilter.init bs).ensure_appropriate P)]
  rw [h1]
  simp only [Bool.not_true, Bool.false_eq_true, if_false]
  rw [h2]
  simp only [Bool.not_true, Bool.false_eq_true, if_false]
  exact h3

/-- C3 witness: for the vocabulary whose organ list contains `anatomy`, the
output of the first call on "hello" passes all three checks, so the second
call is a no-op. -/
theorem claim_C3_witness :
    (EduFilter.init [(S "s", sysAnat)]).ensure_appropriate
        ((EduFilter.init [(S "s", sysAnat)]).ensure_appropriate (S "hello")) =
      (EduFilter.init [(S "s", sysAnat)]).ensure_appropriate (S "hello") :=
  claim_C3_amended [(S "s", sysAnat)] (S "hello") (by decide) (by decide) (by decide)
